import Mathlib

/-!
Verification of the go-server-push HTTP/2 server-push decorator.

The Go sources are shallowly embedded: strings become `List Char`, the
`http.Header` map becomes an association list, the stateful response
decorators become explicit state-passing functions, and the abstract push
capability (`http.Pusher.Push`) becomes an oracle `List Char → PushResult`.
The bloom filter (github.com/willf/bloom) and the DEFLATE/base64 codec are
external libraries that are not part of this repository's sources; they are
modelled from the spec as an executable bit-array filter and an invertible
text encoding (see the `Modelled from the spec:` doc comments).
-/

namespace ServerPush

/-- Go strings are modelled as lists of characters. -/
abbrev Str := List Char

/-- Shorthand to turn a Lean string literal into the model's string type. -/
def toL (s : String) : Str := s.toList

/-- Embedding of Go `unicode.IsSpace`: the Unicode White_Space property
(U+0009–U+000D, U+0020, U+0085, U+00A0, U+1680, U+2000–U+200A, U+2028,
U+2029, U+202F, U+205F, U+3000). -/
def unicodeIsSpace (c : Char) : Bool :=
  let n := c.toNat
  n == 0x9 || n == 0xA || n == 0xB || n == 0xC || n == 0xD || n == 0x20 ||
  n == 0x85 || n == 0xA0 || n == 0x1680 ||
  (0x2000 ≤ n && n ≤ 0x200A) || n == 0x2028 || n == 0x2029 ||
  n == 0x202F || n == 0x205F || n == 0x3000

/-- Embedding of `isFieldSeparator` (server-push.go): `';'` or whitespace. -/
def isFieldSeparator (c : Char) : Bool :=
  c == ';' || unicodeIsSpace c

/-- Helper for `fieldsFunc`: accumulates the current field (reversed). -/
def fieldsFuncAux (p : Char → Bool) : List Char → List Char → List (List Char)
  | acc, [] => [acc.reverse]
  | acc, c :: cs =>
    if p c then acc.reverse :: fieldsFuncAux p [] cs
    else fieldsFuncAux p (c :: acc) cs

/-- Embedding of Go `strings.FieldsFunc`: splits at separator characters and
returns only the non-empty fields. -/
def fieldsFunc (p : Char → Bool) (s : Str) : List Str :=
  (fieldsFuncAux p [] s).filter (· ≠ [])

/-- The literal attribute token `rel=preload`. -/
def preloadTok : Str := toL "rel=preload"

/-- The literal attribute token `rel="preload"`. -/
def preloadQTok : Str := toL "rel=\"preload\""

/-- The literal attribute token `nopush`. -/
def nopushTok : Str := toL "nopush"

/-- Embedding of the attribute-token loop inside `pushLink`: walks the
remaining fields; `nopush` returns immediately (`none`), `rel=preload` and
`rel="preload"` set the `isPreload` flag, everything else is ignored. -/
def scanAttrs : List Str → Bool → Option Bool
  | [], isPreload => some isPreload
  | f :: fs, isPreload =>
    if f = nopushTok then none
    else scanAttrs fs (isPreload || decide (f = preloadTok) || decide (f = preloadQTok))

/-- Embedding of the pure parsing/eligibility part of
`pushResponseWriter.pushLink`: splits the link value on `';'`/whitespace;
requires at least two fields; the first field must be at least 4 characters,
start with `<` then `/`, the next character must not be another `/`, and it
must end with `>`; the remaining fields must include a preload token and no
`nopush` token.  Returns the path between the angle brackets. -/
def pushLinkPath (link : Str) : Option Str :=
  match fieldsFunc isFieldSeparator link with
  | path :: attr :: attrs =>
    if path.length < 4 ∨ path.getD 0 ' ' ≠ '<' ∨ path.getD 1 ' ' ≠ '/' ∨
        path.getD 2 ' ' = '/' ∨ path.getLastD ' ' ≠ '>' then
      none
    else
      match scanAttrs (attr :: attrs) false with
      | some true => some ((path.drop 1).dropLast)
      | _ => none
  | _ => none

/-- The claim's candidate condition, written from the spec's words: at least
2 tokens after splitting on `';'` and whitespace; the first token is at least
4 characters, starts with `<` immediately followed by `/`, the character
after that `/` is not another `/`, and ends with `>`; some remaining token is
exactly `rel=preload` or `rel="preload"`; no remaining token is `nopush`. -/
def specLinkCandidate (link : Str) : Prop :=
  let fields := fieldsFunc isFieldSeparator link
  2 ≤ fields.length ∧
  4 ≤ (fields.headD []).length ∧
  (fields.headD []).getD 0 ' ' = '<' ∧
  (fields.headD []).getD 1 ' ' = '/' ∧
  (fields.headD []).getD 2 ' ' ≠ '/' ∧
  (fields.headD []).getLastD ' ' = '>' ∧
  (∃ f ∈ fields.tail, f = preloadTok ∨ f = preloadQTok) ∧
  nopushTok ∉ fields.tail

/-- Embedding of Go `http.Header`: an association list from canonical header
names to value lists (Go's map is unordered; only lookup matters). -/
abbrev Header := List (Str × List Str)

/-- Lookup in a header map (first matching entry). -/
def hget (h : Header) (k : Str) : Option (List Str) :=
  (h.find? (fun p => decide (p.1 = k))).map (·.2)

/-- Go map assignment `h[k] = v`: replaces any entry for `k` and makes the
key present. -/
def hset (h : Header) (k : Str) (v : List Str) : Header :=
  h.filter (fun p => decide (p.1 ≠ k)) ++ [(k, v)]

/-- `sentinelHeader` constant from utils.go. -/
def sentinelHeader : Str := toL "X-H2-Push"

/-- `defaultCookieName` constant from utils.go. -/
def defaultCookieName : Str := toL "X-H2-Push"

/-- `proxyHeaders` from utils.go: request headers copied into every push
sub-request. -/
def proxyHeaders : List Str :=
  [toL "Accept-Encoding", toL "Accept-Language", toL "Cache-Control", toL "User-Agent"]

/-- Embedding of `headers` (utils.go): copy the configured push-option
headers, then assign the proxied request headers (`h[k] = r.Header[k]`: a
missing request header still creates the key, with an empty value list),
then assign the sentinel header to `["1"]`. -/
def headers (optsH : Header) (reqH : Header) : Header :=
  let h := optsH
  let h := proxyHeaders.foldl (fun h k => hset h k ((hget reqH k).getD [])) h
  hset h sentinelHeader [toL "1"]

/-- Embedding of `IsPush` (utils.go): the two-result map lookup
`_, isPush := r.Header[sentinelHeader]` — true iff the key is present. -/
def IsPush (reqH : Header) : Bool :=
  (hget reqH sentinelHeader).isSome

/-- Modelled from the spec: the bloom-filter push memory
(github.com/willf/bloom, not part of this repository's sources): a
fixed-size bit array of `m` bits with `k` hash rounds. -/
structure PushMemory where
  m : Nat
  k : Nat
  bits : List Bool
deriving DecidableEq, Repr

/-- Modelled from the spec: first string hash round for the push memory. -/
def strHashA (s : Str) : Nat :=
  s.foldl (fun h c => h * 131 + c.toNat) 7

/-- Modelled from the spec: second string hash round for the push memory. -/
def strHashB (s : Str) : Nat :=
  s.foldl (fun h c => h * 31 + c.toNat) 5381

/-- Modelled from the spec: the `k` bit positions probed for a string
(double hashing), each reduced modulo `m`. -/
def bloomIndices (m k : Nat) (s : Str) : List Nat :=
  (List.range k).map fun i => (strHashA s + i * strHashB s) % m

/-- Modelled from the spec: `bloom.New(m, k)` — an empty filter; like the
library, `m` and `k` are clamped to at least 1. -/
def bloomNew (m k : Nat) : PushMemory :=
  ⟨max 1 m, max 1 k, List.replicate (max 1 m) false⟩

/-- Modelled from the spec: `AddString` — set the probed bits. -/
def bloomAdd (f : PushMemory) (s : Str) : PushMemory :=
  { f with bits := (bloomIndices f.m f.k s).foldl (fun bs i => bs.set i true) f.bits }

/-- Modelled from the spec: `TestString` — all probed bits set. -/
def bloomTest (f : PushMemory) (s : Str) : Bool :=
  (bloomIndices f.m f.k s).all fun i => f.bits.getD i false

/-- Add a list of paths to a push memory, in order. -/
def bloomAddAll (f : PushMemory) (ps : List Str) : PushMemory :=
  ps.foldl bloomAdd f

/-- Well-formedness of a push memory: the bit array has length `m` and the
parameters are positive (as guaranteed by `bloomNew`). -/
def PushMemory.WF (f : PushMemory) : Prop :=
  f.bits.length = f.m ∧ 0 < f.m ∧ 0 < f.k

/-- Modelled from the spec: one character per bit of the StateCodec text. -/
def encodeBool (b : Bool) : Char := if b then '1' else '0'

/-- Modelled from the spec: `StateCodec.Encode` — serialize the filter
(`bloom.WriteTo`, DEFLATE, padding-free base64 are black boxes outside this
repository's sources; modelled as an invertible cookie-safe text encoding
of the parameters and bit array). -/
def encode (f : PushMemory) : Str :=
  List.replicate f.k 'k' ++ ';' :: f.bits.map encodeBool

/-- Modelled from the spec: `StateCodec.Decode` — inverse of `encode`;
returns `none` on any malformed, corrupt or truncated input. -/
def decode (s : Str) : Option PushMemory :=
  let ks := s.takeWhile (· == 'k')
  match s.dropWhile (· == 'k') with
  | ';' :: rest =>
    if 0 < ks.length ∧ 0 < rest.length ∧
        rest.all (fun c => c == '0' || c == '1') then
      some ⟨rest.length, ks.length, rest.map (· == '1')⟩
    else none
  | _ => none

/-- Embedding of `http.Cookie` (the fields this package uses). -/
structure Cookie where
  name : Str
  value : Str
  maxAge : Int
  secure : Bool
  httpOnly : Bool
deriving DecidableEq, Repr

/-- Embedding of the `options` struct (server-push.go). -/
structure Opts where
  m : Nat
  k : Nat
  cookie : Cookie
  pushHeader : Header
deriving Repr

/-- Embedding of the `Options` struct passed to `New`. -/
structure NewOpts where
  cookie : Option Cookie
  pushHeader : Header
deriving Repr

/-- Embedding of `New` (server-push.go): defaults the memory cookie to
`defaultCookieName` with `MaxAge` 7776000, `Secure` and `HttpOnly`. -/
def New (m k : Nat) (opts : Option NewOpts) : Opts :=
  let cookie :=
    match opts with
    | some o =>
      match o.cookie with
      | some c => c
      | none => ⟨defaultCookieName, [], 7776000, true, true⟩
    | none => ⟨defaultCookieName, [], 7776000, true, true⟩
  let ph :=
    match opts with
    | some o => o.pushHeader
    | none => []
  ⟨m, k, cookie, ph⟩

/-- The request-side state the decorator consumes: the request headers and
the request's cookies (name/value pairs). -/
structure Req where
  header : Header
  cookies : List (Str × Str)
deriving Repr

/-- Embedding of `r.Cookie(name)`: the first cookie with the given name. -/
def reqCookie (r : Req) (name : Str) : Option Str :=
  (r.cookies.find? (fun p => decide (p.1 = name))).map (·.2)

/-- Result of one call to the abstract push capability
(`Push(path, opts) -> {ok, unsupported, error}`). -/
inductive PushResult
  | ok
  | unsupported
  | err
deriving DecidableEq, Repr

/-- Mutable state of a `pushResponseWriter`: the lazily loaded push memory
(`none` = not yet loaded), the `didPush` flag and the `wroteHeader` flag. -/
structure PushState where
  bloom : Option PushMemory
  didPush : Bool
  wroteHeader : Bool
deriving DecidableEq, Repr

/-- Embedding of `pushResponseWriter.loadBloomFilter`: cookie missing or
empty, or decode failure, falls back to a fresh empty filter of the
configured size. -/
def loadBloomFilter (o : Opts) (r : Req) : PushMemory :=
  match reqCookie r o.cookie.name with
  | none => bloomNew o.m o.k
  | some v =>
    if v = [] then bloomNew o.m o.k
    else
      match decode v with
      | some f => f
      | none => bloomNew o.m o.k

/-- Outcome of `pushResponseWriter.pushLink` on one link value: the updated
state, the `pushed` return value, the returned error (`none` = nil,
`some .unsupported` = `http.ErrNotSupported`, `some .err` = other error) and
the push-capability invocations made (the paths passed to `Push`). -/
structure LinkStep where
  st : PushState
  didPush : Bool
  err : Option PushResult
  calls : List Str
deriving DecidableEq, Repr

/-- Embedding of `pushResponseWriter.pushLink` (state part): parse the link;
for a candidate, lazily load the push memory, skip a positive membership
test, invoke the push capability, and on success set `didPush` and record
the path in the memory. -/
def pushLink (o : Opts) (r : Req) (push : Str → PushResult)
    (st : PushState) (link : Str) : LinkStep :=
  match pushLinkPath link with
  | none => ⟨st, false, none, []⟩
  | some path =>
    let b := match st.bloom with
      | some b => b
      | none => loadBloomFilter o r
    let st1 : PushState := { st with bloom := some b }
    if bloomTest b path then ⟨st1, false, none, []⟩
    else
      match push path with
      | .ok => ⟨{ st1 with bloom := some (bloomAdd b path), didPush := true }, true, none, [path]⟩
      | .unsupported => ⟨st1, false, some .unsupported, [path]⟩
      | .err => ⟨st1, false, some .err, [path]⟩

/-- Outcome of the link loop in `pushResponseWriter.WriteHeader`. -/
structure LoopOut where
  st : PushState
  rest : List Str
  pushedLinks : List Str
  calls : List Str
deriving DecidableEq, Repr

/-- Embedding of the link loop in `pushResponseWriter.WriteHeader`.  `orig`
is the full parsed link list; on `http.ErrNotSupported` the Go code executes
`rest = links` over the backing array already partially overwritten by the
in-place `rest = append(rest, link)` writes, which yields the accumulated
kept links followed by the original list from that position on. -/
def pushLoop (o : Opts) (r : Req) (push : Str → PushResult) (orig : List Str) :
    PushState → List Str → List Str → List Str → List Str → LoopOut
  | st, [], restAcc, pushedAcc, callsAcc => ⟨st, restAcc, pushedAcc, callsAcc⟩
  | st, l :: ls, restAcc, pushedAcc, callsAcc =>
    let step := pushLink o r push st l
    if step.err = some .unsupported then
      ⟨step.st, restAcc ++ orig.drop restAcc.length, pushedAcc, callsAcc ++ step.calls⟩
    else if step.didPush then
      pushLoop o r push orig step.st ls restAcc (pushedAcc ++ [l]) (callsAcc ++ step.calls)
    else
      pushLoop o r push orig step.st ls (restAcc ++ [l]) pushedAcc (callsAcc ++ step.calls)

/-- The response headers the decorator manipulates: the parsed outgoing
`Link` list, the informational pushed-links header (`none` = not set), and
the memory cookie set on the response (`none` = not set). -/
structure RespHeader where
  link : List Str
  pushedH : Option (List Str)
  setCookie : Option Cookie
deriving DecidableEq, Repr

/-- Embedding of `pushResponseWriter.saveBloomFilter`: no push means no
cookie write; otherwise the configured cookie template is sent with the
encoded memory as its value. -/
def saveBloomFilter (o : Opts) (st : PushState) (prev : Option Cookie) : Option Cookie :=
  if st.didPush then
    match st.bloom with
    | some b => some { o.cookie with value := encode b }
    | none => prev
  else prev

/-- Result of one `WriteHeader` call: final decorator state, final response
headers, push-capability invocations, and the status code forwarded to the
underlying `ResponseWriter`. -/
structure Commit where
  st : PushState
  hdr : RespHeader
  calls : List Str
  code : Nat
deriving DecidableEq, Repr

/-- Embedding of `pushResponseWriter.WriteHeader`: a second call forwards
unchanged; status 304 (`http.StatusNotModified`) and an empty link list skip
orchestration; otherwise run the link loop, rewrite the `Link` and
pushed-links headers, save the memory cookie, and forward the status. -/
def writeHeader (o : Opts) (r : Req) (push : Str → PushResult)
    (st : PushState) (hdr : RespHeader) (code : Nat) : Commit :=
  if st.wroteHeader then ⟨st, hdr, [], code⟩
  else
    let st := { st with wroteHeader := true }
    if code = 304 then ⟨st, hdr, [], code⟩
    else if hdr.link = [] then ⟨st, hdr, [], code⟩
    else
      let out := pushLoop o r push hdr.link st hdr.link [] [] []
      ⟨out.st, ⟨out.rest, some out.pushedLinks, saveBloomFilter o out.st hdr.setCookie⟩,
        out.calls, code⟩

/-- Result of one `redirectResponseWriter.WriteHeader` call: the `w.req`
field after the call, the single push invocation made (target and merged
headers), and the status code forwarded. -/
structure RedirOut where
  reqAfter : Option Req
  pushCall : Option (Str × Header)
  code : Nat
deriving Repr

/-- Embedding of `redirectResponseWriter.WriteHeader` (redirects.go): clear
`w.req`; push the `Location` value iff the request is still attached, the
status is in [300,400) and the location is non-empty and starts with `/`;
always forward the status. -/
def redirectWriteHeader (optsH : Header) (st : Option Req)
    (location : Str) (code : Nat) : RedirOut :=
  match st with
  | none => ⟨none, none, code⟩
  | some rq =>
    if code < 300 ∨ 400 ≤ code ∨ location = [] ∨ location.getD 0 ' ' ≠ '/' then
      ⟨none, none, code⟩
    else
      ⟨none, some (location, headers optsH rq.header), code⟩

/-- The run shape of claim C2: starting from decorator state `st`, each link
in turn is successfully pushed, until one link's push capability call
returns `unsupported`.  `P` collects the pushed links and `C` the paths
passed to the push capability. -/
inductive StopsUnsupported (o : Opts) (r : Req) (push : Str → PushResult) :
    PushState → List Str → List Str → List Str → Prop
  | hit : ∀ {st : PushState} {l : Str} {ls : List Str},
      (pushLink o r push st l).err = some .unsupported →
      StopsUnsupported o r push st (l :: ls) [] (pushLink o r push st l).calls
  | step : ∀ {st : PushState} {l : Str} {ls P C : List Str},
      (pushLink o r push st l).didPush = true →
      StopsUnsupported o r push (pushLink o r push st l).st ls P C →
      StopsUnsupported o r push st (l :: ls) (l :: P) ((pushLink o r push st l).calls ++ C)

lemma scanAttrs_eq_some_true_iff (fs : List Str) (b : Bool) :
    scanAttrs fs b = some true ↔
      ((b = true ∨ ∃ f ∈ fs, f = preloadTok ∨ f = preloadQTok) ∧ nopushTok ∉ fs) := by
  induction fs generalizing b with
  | nil => simp [scanAttrs]
  | cons f fs ih =>
    by_cases hf : f = nopushTok
    · subst hf
      simp [scanAttrs]
    · simp only [scanAttrs, if_neg hf, ih]
      constructor
      · rintro ⟨hb, hn⟩
        refine ⟨?_, ?_⟩
        · rcases hb with hb | hb
          · simp only [Bool.or_eq_true, decide_eq_true_eq] at hb
            rcases hb with (hb | hb) | hb
            · exact Or.inl hb
            · exact Or.inr ⟨f, by simp, Or.inl hb⟩
            · exact Or.inr ⟨f, by simp, Or.inr hb⟩
          · rcases hb with ⟨g, hg, hgp⟩
            exact Or.inr ⟨g, by simp [hg], hgp⟩
        · simp only [List.mem_cons, not_or]
          exact ⟨fun h => hf h.symm, hn⟩
      · rintro ⟨hb, hn⟩
        simp only [List.mem_cons, not_or] at hn
        refine ⟨?_, hn.2⟩
        rcases hb with hb | ⟨g, hg, hgp⟩
        · left; simp [hb]
        · rcases List.mem_cons.mp hg with hgf | hgfs
          · subst hgf
            left
            rcases hgp with h | h <;> simp [h]
          · right; exact ⟨g, hgfs, hgp⟩

/-- C1: a Link field value is a push candidate exactly when splitting on
`';'`/whitespace yields at least 2 tokens, the first token is at least 4
characters, starts with `<` immediately followed by a single `/`, ends with
`>`, some remaining token is `rel=preload` or `rel="preload"`, and no
remaining token is `nopush`; and every path `pushLink` passes to the push
capability comes from such a candidate. -/
theorem linkParser_candidate_iff (link : Str) :
    ((pushLinkPath link).isSome ↔ specLinkCandidate link) ∧
    (∀ (o : Opts) (r : Req) (push : Str → PushResult) (st : PushState),
      (pushLink o r push st link).calls.all
        (fun p => decide (pushLinkPath link = some p)) = true) := by
  constructor
  · unfold pushLinkPath specLinkCandidate
    cases h : fieldsFunc isFieldSeparator link with
    | nil => simp
    | cons path rest =>
      cases rest with
      | nil => simp
      | cons attr attrs =>
        by_cases hsh : path.length < 4 ∨ path.getD 0 ' ' ≠ '<' ∨ path.getD 1 ' ' ≠ '/' ∨
            path.getD 2 ' ' = '/' ∨ path.getLastD ' ' ≠ '>'
        · simp only [if_pos hsh, Option.isSome_none, Bool.false_eq_true, false_iff,
            List.headD_cons, List.tail_cons]
          rintro ⟨-, hlen, h0, h1, h2, hl, -, -⟩
          rcases hsh with hs | hs | hs | hs | hs
          · omega
          · exact hs h0
          · exact hs h1
          · exact h2 hs
          · exact hs hl
        · push_neg at hsh
          obtain ⟨hlen, h0, h1, h2, hl⟩ := hsh
          simp only [if_neg (by push_neg; exact ⟨hlen, h0, h1, h2, hl⟩ :
            ¬(path.length < 4 ∨ path.getD 0 ' ' ≠ '<' ∨ path.getD 1 ' ' ≠ '/' ∨
              path.getD 2 ' ' = '/' ∨ path.getLastD ' ' ≠ '>'))]
          cases hs : scanAttrs (attr :: attrs) false with
          | none =>
            simp only [Option.isSome_none, Bool.false_eq_true, false_iff,
              List.headD_cons, List.tail_cons]
            rintro ⟨-, -, -, -, -, -, ⟨g, hg, hgp⟩, hn⟩
            have : scanAttrs (attr :: attrs) false = some true :=
              (scanAttrs_eq_some_true_iff _ _).mpr ⟨Or.inr ⟨g, hg, hgp⟩, hn⟩
            rw [hs] at this
            exact Option.noConfusion this
          | some b =>
            cases b with
            | false =>
              simp only [Option.isSome_none, Bool.false_eq_true, false_iff,
                List.headD_cons, List.tail_cons]
              rintro ⟨-, -, -, -, -, -, ⟨g, hg, hgp⟩, hn⟩
              have : scanAttrs (attr :: attrs) false = some true :=
                (scanAttrs_eq_some_true_iff _ _).mpr ⟨Or.inr ⟨g, hg, hgp⟩, hn⟩
              rw [hs] at this
              simp at this
            | true =>
              have := (scanAttrs_eq_some_true_iff (attr :: attrs) false).mp hs
              simp only [Bool.false_eq_true, false_or] at this
              simp only [Option.isSome_some, true_iff, List.headD_cons, List.tail_cons,
                List.length_cons]
              exact ⟨by omega, by omega, h0, h1, h2, hl, this.1, this.2⟩
  · intro o r push st
    unfold pushLink
    cases h : pushLinkPath link with
    | none => simp
    | some path =>
      cases hb : st.bloom with
      | none =>
        by_cases hbt : bloomTest (loadBloomFilter o r) path
        · simp [hbt]
        · cases hp : push path <;> simp [hbt, hp, h]
      | some b =>
        by_cases hbt : bloomTest b path
        · simp [hbt]
        · cases hp : push path <;> simp [hbt, hp, h]

lemma find?_filter_ne (h : Header) (k k' : Str) (hne : k' ≠ k) :
    (h.filter (fun p => decide (p.1 ≠ k))).find? (fun p => decide (p.1 = k'))
      = h.find? (fun p => decide (p.1 = k')) := by
  induction h with
  | nil => rfl
  | cons p t ih =>
    by_cases hp : p.1 = k
    · have hp' : ¬(p.1 = k') := fun hc => hne (hc ▸ hp)
      rw [List.filter_cons_of_neg (by simp [hp]), ih,
        List.find?_cons_of_neg _ (by simp [hp'])]
    · rw [List.filter_cons_of_pos (by simp [hp])]
      by_cases hp' : p.1 = k'
      · rw [List.find?_cons_of_pos _ (by simp [hp']),
          List.find?_cons_of_pos _ (by simp [hp'])]
      · rw [List.find?_cons_of_neg _ (by simp [hp']),
          List.find?_cons_of_neg _ (by simp [hp']), ih]

lemma hget_hset_self (h : Header) (k : Str) (v : List Str) :
    hget (hset h k v) k = some v := by
  unfold hget hset
  rw [List.find?_append]
  have h1 : (h.filter (fun p => decide (p.1 ≠ k))).find? (fun p => decide (p.1 = k)) = none := by
    rw [List.find?_eq_none]
    intro x hx
    have hx2 := (List.mem_filter.mp hx).2
    simp only [decide_eq_true_eq] at hx2 ⊢
    exact hx2
  rw [h1]
  simp [List.find?]

lemma hget_hset_ne (h : Header) {k k' : Str} (v : List Str) (hne : k' ≠ k) :
    hget (hset h k v) k' = hget h k' := by
  unfold hget hset
  rw [List.find?_append]
  have h2 : List.find? (fun p => decide (p.1 = k')) [(k, v)] = none := by
    have hd : decide ((k, v).1 = k') = false :=
      decide_eq_false (fun hc => hne hc.symm)
    simp [List.find?, hd]
  rw [h2, Option.or_none, find?_filter_ne h k k' hne]

lemma hget_isSome_iff (h : Header) (k : Str) :
    (hget h k).isSome = true ↔ ∃ p ∈ h, p.1 = k := by
  unfold hget
  rw [Option.isSome_map', List.find?_isSome]
  simp

lemma headers_eq (optsH reqH : Header) :
    headers optsH reqH =
      hset (hset (hset (hset (hset optsH (toL "Accept-Encoding")
          ((hget reqH (toL "Accept-Encoding")).getD []))
        (toL "Accept-Language") ((hget reqH (toL "Accept-Language")).getD []))
        (toL "Cache-Control") ((hget reqH (toL "Cache-Control")).getD []))
        (toL "User-Agent") ((hget reqH (toL "User-Agent")).getD []))
        sentinelHeader [toL "1"] := rfl

lemma headers_sentinel (optsH reqH : Header) :
    hget (headers optsH reqH) sentinelHeader = some [toL "1"] := by
  rw [headers_eq]
  exact hget_hset_self ..

lemma headers_proxy (optsH reqH : Header) {kk : Str} (hkk : kk ∈ proxyHeaders) :
    hget (headers optsH reqH) kk = some ((hget reqH kk).getD []) := by
  rw [headers_eq]
  unfold proxyHeaders at hkk
  rcases List.mem_cons.mp hkk with h | hkk
  · subst h
    rw [hget_hset_ne _ _ (by decide), hget_hset_ne _ _ (by decide),
      hget_hset_ne _ _ (by decide), hget_hset_ne _ _ (by decide)]
    exact hget_hset_self ..
  rcases List.mem_cons.mp hkk with h | hkk
  · subst h
    rw [hget_hset_ne _ _ (by decide), hget_hset_ne _ _ (by decide),
      hget_hset_ne _ _ (by decide)]
    exact hget_hset_self ..
  rcases List.mem_cons.mp hkk with h | hkk
  · subst h
    rw [hget_hset_ne _ _ (by decide), hget_hset_ne _ _ (by decide)]
    exact hget_hset_self ..
  rcases List.mem_cons.mp hkk with h | hkk
  · subst h
    rw [hget_hset_ne _ _ (by decide)]
    exact hget_hset_self ..
  · exact absurd hkk (List.not_mem_nil _)

lemma headers_other (optsH reqH : Header) {kk : Str}
    (h1 : kk ∉ proxyHeaders) (h2 : kk ≠ sentinelHeader) :
    hget (headers optsH reqH) kk = hget optsH kk := by
  rw [headers_eq]
  simp only [proxyHeaders, List.mem_cons, List.not_mem_nil, or_false, not_or] at h1
  obtain ⟨n1, n2, n3, n4⟩ := h1
  rw [hget_hset_ne _ _ h2, hget_hset_ne _ _ n4, hget_hset_ne _ _ n3,
    hget_hset_ne _ _ n2, hget_hset_ne _ _ n1]

/-- C8: every push sub-request header map carries the configured extra
headers, the four proxied request headers copied verbatim (a missing request
header yields an empty value), and the sentinel `X-H2-Push: 1`; and `IsPush`
is true exactly when the request's headers contain the sentinel key. -/
theorem push_headers_merge (optsH reqH : Header) :
    (∀ kk ∈ proxyHeaders, hget (headers optsH reqH) kk = some ((hget reqH kk).getD [])) ∧
    hget (headers optsH reqH) sentinelHeader = some [toL "1"] ∧
    (∀ h : Header, IsPush h = true ↔ ∃ p ∈ h, p.1 = sentinelHeader) ∧
    (∀ kk, kk ∉ proxyHeaders → kk ≠ sentinelHeader →
      hget (headers optsH reqH) kk = hget optsH kk) :=
  ⟨fun _ hkk => headers_proxy optsH reqH hkk, headers_sentinel optsH reqH,
   fun h => hget_isSome_iff h sentinelHeader,
   fun _ h1 h2 => headers_other optsH reqH h1 h2⟩

theorem push_headers_merge_witness :
    (toL "Accept-Encoding" ∈ proxyHeaders) ∧
    hget (headers [(toL "X-Extra", [toL "v"])] [(toL "Accept-Encoding", [toL "gzip"])])
        (toL "Accept-Encoding")
      = some ((hget [(toL "Accept-Encoding", [toL "gzip"])] (toL "Accept-Encoding")).getD []) :=
  ⟨by decide,
   (push_headers_merge [(toL "X-Extra", [toL "v"])]
      [(toL "Accept-Encoding", [toL "gzip"])]).1 _ (by decide)⟩

/-- C10: the sentinel and proxied-header assignments happen after the
configured PushOptions headers are copied, so even a configuration whose
header map contains `X-H2-Push` or one of the four proxied names is
overridden: the sentinel entry is exactly `["1"]` and the proxied entries
equal the triggering request's values. -/
theorem push_headers_override (optsH reqH : Header) (v : List Str) (kk : Str)
    (hkk : kk ∈ proxyHeaders) :
    hget (headers (hset optsH sentinelHeader v) reqH) sentinelHeader = some [toL "1"] ∧
    hget (headers (hset optsH kk v) reqH) kk = some ((hget reqH kk).getD []) :=
  ⟨headers_sentinel .., headers_proxy _ _ hkk⟩

theorem push_headers_override_witness :
    (toL "User-Agent" ∈ proxyHeaders) ∧
    (hget (headers (hset [] sentinelHeader [toL "evil"]) [(toL "User-Agent", [toL "UA1"])])
        sentinelHeader = some [toL "1"] ∧
     hget (headers (hset [] (toL "User-Agent") [toL "evil"]) [(toL "User-Agent", [toL "UA1"])])
        (toL "User-Agent")
      = some ((hget [(toL "User-Agent", [toL "UA1"])] (toL "User-Agent")).getD [])) :=
  ⟨by decide,
   push_headers_override [] [(toL "User-Agent", [toL "UA1"])] [toL "evil"]
     (toL "User-Agent") (by decide)⟩

lemma getD_set_self (bs : List Bool) (i : Nat) (hlt : i < bs.length) :
    (bs.set i true).getD i false = true := by
  rw [List.getD_eq_getElem?_getD, List.getElem?_set_self hlt]
  rfl

lemma getD_set_mono (bs : List Bool) (i j : Nat) (h : bs.getD j false = true) :
    (bs.set i true).getD j false = true := by
  rcases eq_or_ne i j with rfl | hne
  · by_cases hlt : i < bs.length
    · exact getD_set_self bs i hlt
    · rwa [List.set_eq_of_length_le (le_of_not_lt hlt)]
  · rwa [List.getD_eq_getElem?_getD, List.getElem?_set_ne hne,
      ← List.getD_eq_getElem?_getD]

lemma length_foldl_set (idxs : List Nat) (bs : List Bool) :
    (idxs.foldl (fun b i => b.set i true) bs).length = bs.length := by
  induction idxs generalizing bs with
  | nil => rfl
  | cons i is ih => simp [List.foldl_cons, ih, List.length_set]

lemma getD_foldl_set_mono (idxs : List Nat) (bs : List Bool) (j : Nat)
    (h : bs.getD j false = true) :
    (idxs.foldl (fun b i => b.set i true) bs).getD j false = true := by
  induction idxs generalizing bs with
  | nil => exact h
  | cons i is ih => exact ih _ (getD_set_mono bs i j h)

lemma getD_foldl_set_mem (idxs : List Nat) (i : Nat) (hi : i ∈ idxs) :
    ∀ bs : List Bool, i < bs.length →
      (idxs.foldl (fun b i => b.set i true) bs).getD i false = true := by
  induction idxs with
  | nil => cases hi
  | cons j js ih =>
    intro bs hlt
    rcases List.mem_cons.mp hi with rfl | hi'
    · exact getD_foldl_set_mono js _ i (getD_set_self bs i hlt)
    · exact ih hi' _ (by rwa [List.length_set])

lemma bloomIndices_lt (m k : Nat) (s : Str) (hm : 0 < m) :
    ∀ i ∈ bloomIndices m k s, i < m := by
  intro i hi
  simp only [bloomIndices, List.mem_map] at hi
  obtain ⟨j, -, rfl⟩ := hi
  exact Nat.mod_lt _ hm

lemma bloomNew_WF (m k : Nat) : (bloomNew m k).WF := by
  refine ⟨?_, ?_, ?_⟩ <;> simp [bloomNew, PushMemory.WF]

lemma bloomAdd_WF (f : PushMemory) (s : Str) (h : f.WF) : (bloomAdd f s).WF := by
  obtain ⟨h1, h2, h3⟩ := h
  exact ⟨by simp [bloomAdd, length_foldl_set, h1], h2, h3⟩

lemma bloomTest_bloomAdd_self (f : PushMemory) (s : Str) (h : f.WF) :
    bloomTest (bloomAdd f s) s = true := by
  obtain ⟨h1, h2, h3⟩ := h
  simp only [bloomTest, bloomAdd, List.all_eq_true]
  intro i hi
  exact getD_foldl_set_mem _ _ hi _ (by rw [h1]; exact bloomIndices_lt f.m f.k s h2 i hi)

lemma bloomTest_mono (f : PushMemory) (s t : Str) (h : bloomTest f s = true) :
    bloomTest (bloomAdd f t) s = true := by
  simp only [bloomTest, bloomAdd, List.all_eq_true] at h ⊢
  intro i hi
  exact getD_foldl_set_mono _ _ _ (h i hi)

lemma getD_replicate_false (n i : Nat) : (List.replicate n false).getD i false = false := by
  rw [List.getD_eq_getElem?_getD, List.getElem?_replicate]
  split <;> rfl

lemma bloomTest_bloomNew (m k : Nat) (s : Str) : bloomTest (bloomNew m k) s = false := by
  simp only [bloomTest, bloomNew]
  rw [List.all_eq_false]
  refine ⟨(strHashA s + 0 * strHashB s) % max 1 m, ?_, ?_⟩
  · simp only [bloomIndices, List.mem_map]
    exact ⟨0, by simp, rfl⟩
  · simp [getD_replicate_false]

lemma bloomAddAll_WF (ps : List Str) (f : PushMemory) (h : f.WF) :
    (bloomAddAll f ps).WF := by
  induction ps generalizing f with
  | nil => exact h
  | cons p ps ih => exact ih _ (bloomAdd_WF _ _ h)

lemma bloomTest_bloomAddAll_mono (ps : List Str) (f : PushMemory) (s : Str)
    (h : bloomTest f s = true) : bloomTest (bloomAddAll f ps) s = true := by
  induction ps generalizing f with
  | nil => exact h
  | cons p ps ih => exact ih _ (bloomTest_mono _ _ _ h)

lemma bloomTest_bloomAddAll_mem (ps : List Str) (p : Str) (hp : p ∈ ps) :
    ∀ f : PushMemory, f.WF → bloomTest (bloomAddAll f ps) p = true := by
  induction ps with
  | nil => cases hp
  | cons q ps ih =>
    intro f h
    rcases List.mem_cons.mp hp with rfl | hp'
    · exact bloomTest_bloomAddAll_mono ps _ _ (bloomTest_bloomAdd_self f p h)
    · exact ih hp' _ (bloomAdd_WF _ _ h)

lemma takeWhile_replicate_cons (n : Nat) (t : Str) :
    ((List.replicate n 'k' ++ ';' :: t).takeWhile (· == 'k')) = List.replicate n 'k' := by
  induction n with
  | zero => simp [List.takeWhile_cons, show ((';' : Char) == 'k') = false from by decide]
  | succ n ih =>
    rw [List.replicate_succ, List.cons_append, List.takeWhile_cons]
    simp [ih]

lemma dropWhile_replicate_cons (n : Nat) (t : Str) :
    ((List.replicate n 'k' ++ ';' :: t).dropWhile (· == 'k')) = ';' :: t := by
  induction n with
  | zero => simp [List.dropWhile_cons, show ((';' : Char) == 'k') = false from by decide]
  | succ n ih =>
    rw [List.replicate_succ, List.cons_append, List.dropWhile_cons]
    simp [ih]

lemma map_encodeBool_roundtrip (bs : List Bool) :
    (bs.map encodeBool).map (· == '1') = bs := by
  induction bs with
  | nil => rfl
  | cons b bs ih =>
    cases b <;>
      simp [encodeBool, ih, show (('0' : Char) == '1') = false from by decide,
        show (('1' : Char) == '1') = true from by decide]

lemma all_encodeBool (bs : List Bool) :
    (bs.map encodeBool).all (fun c => c == '0' || c == '1') = true := by
  induction bs with
  | nil => rfl
  | cons b bs ih => cases b <;> simp [encodeBool, ih]

lemma decode_encode (f : PushMemory) (h : f.WF) : decode (encode f) = some f := by
  rcases f with ⟨m, k, bits⟩
  simp only [PushMemory.WF] at h
  obtain ⟨h1, h2, h3⟩ := h
  unfold decode encode
  rw [takeWhile_replicate_cons, dropWhile_replicate_cons]
  simp only [List.length_replicate, List.length_map]
  rw [if_pos ⟨h3, by omega, all_encodeBool bits⟩]
  simp only [map_encodeBool_roundtrip, Option.some.injEq, List.length_map]
  rw [show bits.length = m from h1]

lemma encode_ne_nil (f : PushMemory) : encode f ≠ [] := by
  unfold encode
  cases hk : f.k <;> simp [List.replicate]

lemma loadBloomFilter_cookie (o : Opts) (r : Req) (f : PushMemory) (h : f.WF)
    (hc : reqCookie r o.cookie.name = some (encode f)) :
    loadBloomFilter o r = f := by
  simp only [loadBloomFilter, hc]
  rw [if_neg (encode_ne_nil f), decode_encode f h]

lemma pushLink_cases (o : Opts) (r : Req) (push : Str → PushResult)
    (st : PushState) (l : Str) :
    (pushLink o r push st l).st.wroteHeader = st.wroteHeader ∧
    (pushLink o r push st l).st.didPush = ((pushLink o r push st l).didPush || st.didPush) ∧
    ((pushLink o r push st l).didPush = true → (pushLink o r push st l).err = none) ∧
    ((pushLink o r push st l).didPush = true →
      (pushLink o r push st l).st.bloom.isSome = true) ∧
    (st.bloom.isSome = true → (pushLink o r push st l).st.bloom.isSome = true) := by
  unfold pushLink
  cases h : pushLinkPath l with
  | none => simp
  | some path =>
    cases hb : st.bloom with
    | none =>
      by_cases hbt : bloomTest (loadBloomFilter o r) path
      · simp [hbt]
      · cases hp : push path <;> simp [hbt, hp]
    | some b =>
      by_cases hbt : bloomTest b path
      · simp [hbt]
      · cases hp : push path <;> simp [hbt, hp]

lemma pushLoop_cons_unsupported (o : Opts) (r : Req) (push : Str → PushResult)
    (orig : List Str) (st : PushState) (l : Str) (ls restAcc pA cA : List Str)
    (h : (pushLink o r push st l).err = some .unsupported) :
    pushLoop o r push orig st (l :: ls) restAcc pA cA =
      ⟨(pushLink o r push st l).st, restAcc ++ orig.drop restAcc.length, pA,
        cA ++ (pushLink o r push st l).calls⟩ := by
  simp [pushLoop, h]

lemma pushLoop_cons_push (o : Opts) (r : Req) (push : Str → PushResult)
    (orig : List Str) (st : PushState) (l : Str) (ls restAcc pA cA : List Str)
    (h1 : (pushLink o r push st l).err ≠ some .unsupported)
    (h2 : (pushLink o r push st l).didPush = true) :
    pushLoop o r push orig st (l :: ls) restAcc pA cA =
      pushLoop o r push orig (pushLink o r push st l).st ls restAcc (pA ++ [l])
        (cA ++ (pushLink o r push st l).calls) := by
  simp [pushLoop, h1, h2]

lemma pushLoop_cons_skip (o : Opts) (r : Req) (push : Str → PushResult)
    (orig : List Str) (st : PushState) (l : Str) (ls restAcc pA cA : List Str)
    (h1 : (pushLink o r push st l).err ≠ some .unsupported)
    (h2 : (pushLink o r push st l).didPush = false) :
    pushLoop o r push orig st (l :: ls) restAcc pA cA =
      pushLoop o r push orig (pushLink o r push st l).st ls (restAcc ++ [l]) pA
        (cA ++ (pushLink o r push st l).calls) := by
  simp [pushLoop, h1, h2]

lemma pushLoop_wroteHeader (o : Opts) (r : Req) (push : Str → PushResult)
    (orig : List Str) (ls : List Str) :
    ∀ (st : PushState) (restAcc pA cA : List Str),
      (pushLoop o r push orig st ls restAcc pA cA).st.wroteHeader = st.wroteHeader := by
  induction ls with
  | nil => intro st restAcc pA cA; rfl
  | cons l ls ih =>
    intro st restAcc pA cA
    by_cases h1 : (pushLink o r push st l).err = some .unsupported
    · rw [pushLoop_cons_unsupported o r push orig st l ls restAcc pA cA h1]
      exact (pushLink_cases o r push st l).1
    · cases h2 : (pushLink o r push st l).didPush
      · rw [pushLoop_cons_skip o r push orig st l ls restAcc pA cA h1 h2, ih]
        exact (pushLink_cases o r push st l).1
      · rw [pushLoop_cons_push o r push orig st l ls restAcc pA cA h1 h2, ih]
        exact (pushLink_cases o r push st l).1

lemma writeHeader_already (o : Opts) (r : Req) (push : Str → PushResult)
    (st : PushState) (hdr : RespHeader) (code : Nat) (hw : st.wroteHeader = true) :
    writeHeader o r push st hdr code = ⟨st, hdr, [], code⟩ := by
  unfold writeHeader
  rw [if_pos hw]

lemma writeHeader_wroteHeader (o : Opts) (r : Req) (push : Str → PushResult)
    (st : PushState) (hdr : RespHeader) (code : Nat) :
    (writeHeader o r push st hdr code).st.wroteHeader = true := by
  by_cases hw : st.wroteHeader = true
  · rw [writeHeader_already o r push st hdr code hw]
    exact hw
  · unfold writeHeader
    rw [if_neg hw]
    dsimp only
    split_ifs <;> simp [pushLoop_wroteHeader]

/-- C5: a second `WriteHeader` call on the same decorator performs no push
orchestration, changes neither the headers nor the decorator state, and
forwards the status unchanged, keeping the headers established by the first
commit. -/
theorem second_commit_idempotent (o : Opts) (r : Req) (push : Str → PushResult)
    (st : PushState) (hdr : RespHeader) (code code' : Nat) :
    writeHeader o r push (writeHeader o r push st hdr code).st
        (writeHeader o r push st hdr code).hdr code'
      = ⟨(writeHeader o r push st hdr code).st,
          (writeHeader o r push st hdr code).hdr, [], code'⟩ :=
  writeHeader_already o r push _ _ code' (writeHeader_wroteHeader o r push st hdr code)

/-- C9: a first header commit with status 304 performs no orchestration — no
memory load, no push call, no header or cookie change — and forwards the
status unchanged. -/
theorem not_modified_skips_orchestration (o : Opts) (r : Req)
    (push : Str → PushResult) (bl : Option PushMemory) (dp : Bool)
    (hdr : RespHeader) :
    writeHeader o r push ⟨bl, dp, false⟩ hdr 304 = ⟨⟨bl, dp, true⟩, hdr, [], 304⟩ := by
  unfold writeHeader
  simp

/-- C7: a missing, empty or undecodable memory cookie makes the decorator
fall back to a fresh empty push memory of the configured size, and decode
failure never prevents the response: the status is always forwarded. -/
theorem decode_failure_fresh_memory :
    (∀ (o : Opts) (r : Req), reqCookie r o.cookie.name = none →
      loadBloomFilter o r = bloomNew o.m o.k) ∧
    (∀ (o : Opts) (r : Req), reqCookie r o.cookie.name = some [] →
      loadBloomFilter o r = bloomNew o.m o.k) ∧
    (∀ (o : Opts) (r : Req) (v : Str), reqCookie r o.cookie.name = some v →
      decode v = none → loadBloomFilter o r = bloomNew o.m o.k) ∧
    (∀ (m k : Nat) (s : Str), bloomTest (bloomNew m k) s = false) ∧
    (∀ (o : Opts) (r : Req) (push : Str → PushResult) (st : PushState)
        (hdr : RespHeader) (code : Nat),
      (writeHeader o r push st hdr code).code = code) := by
  refine ⟨?_, ?_, ?_, bloomTest_bloomNew, ?_⟩
  · intro o r h
    simp [loadBloomFilter, h]
  · intro o r h
    simp [loadBloomFilter, h]
  · intro o r v h hd
    by_cases hv : v = []
    · simp [loadBloomFilter, h, hv]
    · simp [loadBloomFilter, h, hv, hd]
  · intro o r push st hdr code
    unfold writeHeader
    split_ifs <;> rfl

theorem decode_failure_fresh_memory_witness :
    (reqCookie ⟨[], [(defaultCookieName, toL "!corrupt!")]⟩ (New 8 2 none).cookie.name
        = some (toL "!corrupt!") ∧
      decode (toL "!corrupt!") = none) ∧
    loadBloomFilter (New 8 2 none) ⟨[], [(defaultCookieName, toL "!corrupt!")]⟩
      = bloomNew (New 8 2 none).m (New 8 2 none).k :=
  ⟨⟨by decide, by decide⟩,
   decode_failure_fresh_memory.2.2.1 (New 8 2 none)
     ⟨[], [(defaultCookieName, toL "!corrupt!")]⟩ (toL "!corrupt!")
     (by decide) (by decide)⟩

/-- C3 (amended): the redirect decorator pushes the `Location` target exactly
when the status is in [300,400) and the location is non-empty and begins
with `/` (the code does not exclude protocol-relative `//` locations); the
push carries the merged proxied headers, at most one push happens, the
status is always forwarded, and a second commit (request already detached)
never pushes. -/
theorem redirect_push_iff (optsH : Header) (rq : Req) (location : Str) (code : Nat) :
    ((redirectWriteHeader optsH (some rq) location code).pushCall.isSome ↔
      (300 ≤ code ∧ code < 400 ∧ location ≠ [] ∧ location.getD 0 ' ' = '/')) ∧
    (redirectWriteHeader optsH (some rq) location code).code = code ∧
    (∀ t h, (redirectWriteHeader optsH (some rq) location code).pushCall = some (t, h) →
      t = location ∧ h = headers optsH rq.header) ∧
    (redirectWriteHeader optsH none location code).pushCall = none ∧
    (redirectWriteHeader optsH none location code).code = code := by
  simp only [redirectWriteHeader]
  by_cases hc : code < 300 ∨ 400 ≤ code ∨ location = [] ∨ location.getD 0 ' ' ≠ '/'
  · rw [if_pos hc]
    refine ⟨?_, by trivial, ?_, by trivial, by trivial⟩
    · simp only [Option.isSome_none, Bool.false_eq_true, false_iff]
      rintro ⟨h1, h2, h3, h4⟩
      rcases hc with h | h | h | h
      · omega
      · omega
      · exact h3 h
      · exact h h4
    · intro t h htx
      exact absurd htx (by simp)
  · rw [if_neg hc]
    push_neg at hc
    obtain ⟨h1, h2, h3, h4⟩ := hc
    refine ⟨?_, by trivial, ?_, by trivial, by trivial⟩
    · simp only [Option.isSome_some, true_iff]
      exact ⟨by omega, by omega, h3, h4⟩
    · intro t h htx
      simp only [Option.some.injEq, Prod.mk.injEq] at htx
      exact ⟨htx.1.symm, htx.2.symm⟩

theorem redirect_push_iff_witness :
    (redirectWriteHeader [] (some ⟨[(toL "User-Agent", [toL "UA1"])], []⟩)
        (toL "/login") 302).pushCall
      = some (toL "/login",
          headers [] (Req.mk [(toL "User-Agent", [toL "UA1"])] []).header) ∧
    (redirectWriteHeader [] (some ⟨[(toL "User-Agent", [toL "UA1"])], []⟩)
        (toL "/login") 200).pushCall = none := by
  have h := redirect_push_iff [] ⟨[(toL "User-Agent", [toL "UA1"])], []⟩ (toL "/login") 302
  refine ⟨?_, by decide⟩
  have hs : (redirectWriteHeader [] (some ⟨[(toL "User-Agent", [toL "UA1"])], []⟩)
      (toL "/login") 302).pushCall.isSome = true :=
    h.1.mpr ⟨by decide, by decide, by decide, by decide⟩
  obtain ⟨⟨t, hd⟩, hsome⟩ := Option.isSome_iff_exists.mp hs
  obtain ⟨ht, hh⟩ := h.2.2.1 t hd hsome
  rw [hsome, ht, hh]

/-- C3 counterexample: the claim requires that a Location beginning with
`//` (protocol-relative) is never pushed, but the code pushes a 302 with
`Location: //evil.example/x` — only `location[0] == '/'` is checked. -/
theorem redirect_push_counterexample :
    ((redirectWriteHeader [] (some ⟨[], []⟩) (toL "//evil.example/x") 302).pushCall).isSome
      = true ∧
    (toL "//evil.example/x").take 2 = toL "//" := by
  constructor
  · decide
  · decide

lemma pushLoop_stops (o : Opts) (r : Req) (push : Str → PushResult) (orig : List Str)
    {st : PushState} {ls P C : List Str}
    (h : StopsUnsupported o r push st ls P C) :
    ∀ pA cA : List Str,
      (pushLoop o r push orig st ls [] pA cA).rest = orig ∧
      (pushLoop o r push orig st ls [] pA cA).pushedLinks = pA ++ P ∧
      (pushLoop o r push orig st ls [] pA cA).calls = cA ++ C := by
  induction h with
  | @hit st l ls herr =>
    intro pA cA
    rw [pushLoop_cons_unsupported o r push orig st l ls [] pA cA herr]
    simp
  | @step st l ls P C hdp hrest ih =>
    intro pA cA
    have herr : (pushLink o r push st l).err = none :=
      (pushLink_cases o r push st l).2.2.1 hdp
    rw [pushLoop_cons_push o r push orig st l ls [] pA cA
      (by rw [herr]; exact fun hc => Option.noConfusion hc) hdp]
    obtain ⟨h1, h2, h3⟩ := ih (pA ++ [l]) (cA ++ (pushLink o r push st l).calls)
    refine ⟨h1, ?_, ?_⟩
    · rw [h2, List.append_assoc]
      simp
    · rw [h3, List.append_assoc]

/-- C2 (amended): when the push capability returns `unsupported` on a
candidate after the earlier candidates were successfully pushed, no further
push attempts occur and the candidates from that point on remain in the
surviving Link header; however, the successfully pushed candidates are NOT
removed: the code restores the complete original link list
(`rest = links`), so they also remain in the surviving Link header, while
still being recorded in the informational pushed-links header. -/
theorem unsupported_halts_processing (o : Opts) (r : Req) (push : Str → PushResult)
    (hdr : RespHeader) (code : Nat) (P C : List Str)
    (hcode : code ≠ 304) (hne : hdr.link ≠ [])
    (hstop : StopsUnsupported o r push ⟨none, false, true⟩ hdr.link P C) :
    (writeHeader o r push ⟨none, false, false⟩ hdr code).hdr.link = hdr.link ∧
    (writeHeader o r push ⟨none, false, false⟩ hdr code).hdr.pushedH = some P ∧
    (writeHeader o r push ⟨none, false, false⟩ hdr code).calls = C := by
  unfold writeHeader
  rw [if_neg (by simp)]
  dsimp only
  rw [if_neg hcode, if_neg hne]
  obtain ⟨h1, h2, h3⟩ := pushLoop_stops o r push hdr.link hstop [] []
  refine ⟨h1, ?_, ?_⟩
  · rw [show (pushLoop o r push hdr.link ⟨none, false, true⟩ hdr.link [] [] []).pushedLinks
        = [] ++ P from h2]
    simp
  · rw [show (pushLoop o r push hdr.link ⟨none, false, true⟩ hdr.link [] [] []).calls
        = [] ++ C from h3]
    simp

theorem unsupported_halts_processing_witness :
    ((200 : Nat) ≠ 304 ∧
      (⟨[toL "</a>; rel=preload", toL "</b>; rel=preload", toL "</c>; rel=preload"],
        none, none⟩ : RespHeader).link ≠ []) ∧
    ((writeHeader (New 8 2 none) ⟨[], []⟩
        (fun p => if p = toL "/a" then PushResult.ok else PushResult.unsupported)
        ⟨none, false, false⟩
        ⟨[toL "</a>; rel=preload", toL "</b>; rel=preload", toL "</c>; rel=preload"],
          none, none⟩ 200).hdr.link
      = [toL "</a>; rel=preload", toL "</b>; rel=preload", toL "</c>; rel=preload"] ∧
     (writeHeader (New 8 2 none) ⟨[], []⟩
        (fun p => if p = toL "/a" then PushResult.ok else PushResult.unsupported)
        ⟨none, false, false⟩
        ⟨[toL "</a>; rel=preload", toL "</b>; rel=preload", toL "</c>; rel=preload"],
          none, none⟩ 200).hdr.pushedH = some [toL "</a>; rel=preload"] ∧
     (writeHeader (New 8 2 none) ⟨[], []⟩
        (fun p => if p = toL "/a" then PushResult.ok else PushResult.unsupported)
        ⟨none, false, false⟩
        ⟨[toL "</a>; rel=preload", toL "</b>; rel=preload", toL "</c>; rel=preload"],
          none, none⟩ 200).calls = [toL "/a", toL "/b"]) :=
  ⟨⟨by decide, by decide⟩,
   unsupported_halts_processing (New 8 2 none) ⟨[], []⟩
     (fun p => if p = toL "/a" then PushResult.ok else PushResult.unsupported)
     ⟨[toL "</a>; rel=preload", toL "</b>; rel=preload", toL "</c>; rel=preload"],
       none, none⟩ 200
     [toL "</a>; rel=preload"] [toL "/a", toL "/b"]
     (by decide) (by decide)
     (StopsUnsupported.step (by decide) (StopsUnsupported.hit (by decide)))⟩

/-- C2 counterexample: three eligible links, link 1 pushes successfully and
link 2 returns `unsupported`; the claim requires the pushed link 1 to be
removed from the surviving Link header, but the code's `rest = links`
restores the complete list, so link 1 remains even though it is recorded as
pushed; processing does stop (no call for link 3). -/
theorem unsupported_keeps_pushed_link_counterexample :
    (writeHeader (New 8 2 none) ⟨[], []⟩
        (fun p => if p = toL "/a" then PushResult.ok else PushResult.unsupported)
        ⟨none, false, false⟩
        ⟨[toL "</a>; rel=preload", toL "</b>; rel=preload", toL "</c>; rel=preload"],
          none, none⟩ 200).hdr.pushedH = some [toL "</a>; rel=preload"] ∧
    (writeHeader (New 8 2 none) ⟨[], []⟩
        (fun p => if p = toL "/a" then PushResult.ok else PushResult.unsupported)
        ⟨none, false, false⟩
        ⟨[toL "</a>; rel=preload", toL "</b>; rel=preload", toL "</c>; rel=preload"],
          none, none⟩ 200).hdr.link
      = [toL "</a>; rel=preload", toL "</b>; rel=preload", toL "</c>; rel=preload"] ∧
    (writeHeader (New 8 2 none) ⟨[], []⟩
        (fun p => if p = toL "/a" then PushResult.ok else PushResult.unsupported)
        ⟨none, false, false⟩
        ⟨[toL "</a>; rel=preload", toL "</b>; rel=preload", toL "</c>; rel=preload"],
          none, none⟩ 200).calls = [toL "/a", toL "/b"] := by
  refine ⟨?_, ?_, ?_⟩ <;> decide

lemma pushLink_didPush_of_err (o : Opts) (r : Req) (push : Str → PushResult)
    (st : PushState) (l : Str)
    (h : (pushLink o r push st l).err = some PushResult.unsupported) :
    (pushLink o r push st l).didPush = false := by
  cases hdp : (pushLink o r push st l).didPush
  · rfl
  · have := (pushLink_cases o r push st l).2.2.1 hdp
    rw [h] at this
    exact Option.noConfusion this

lemma pushLoop_didPush (o : Opts) (r : Req) (push : Str → PushResult)
    (orig : List Str) (ls : List Str) :
    ∀ (st : PushState) (restAcc pA cA : List Str),
      ∃ extra,
        (pushLoop o r push orig st ls restAcc pA cA).pushedLinks = pA ++ extra ∧
        (pushLoop o r push orig st ls restAcc pA cA).st.didPush
          = (st.didPush || !extra.isEmpty) := by
  induction ls with
  | nil =>
    intro st restAcc pA cA
    exact ⟨[], by simp [pushLoop], by simp [pushLoop]⟩
  | cons l ls ih =>
    intro st restAcc pA cA
    by_cases h1 : (pushLink o r push st l).err = some .unsupported
    · rw [pushLoop_cons_unsupported o r push orig st l ls restAcc pA cA h1]
      refine ⟨[], by simp, ?_⟩
      rw [(pushLink_cases o r push st l).2.1, pushLink_didPush_of_err o r push st l h1]
      simp
    · cases h2 : (pushLink o r push st l).didPush
      · rw [pushLoop_cons_skip o r push orig st l ls restAcc pA cA h1 h2]
        obtain ⟨e, he1, he2⟩ := ih (pushLink o r push st l).st (restAcc ++ [l]) pA
          (cA ++ (pushLink o r push st l).calls)
        refine ⟨e, he1, ?_⟩
        rw [he2, (pushLink_cases o r push st l).2.1, h2]
        simp
      · rw [pushLoop_cons_push o r push orig st l ls restAcc pA cA h1 h2]
        obtain ⟨e, he1, he2⟩ := ih (pushLink o r push st l).st restAcc (pA ++ [l])
          (cA ++ (pushLink o r push st l).calls)
        refine ⟨l :: e, ?_, ?_⟩
        · rw [he1, List.append_assoc]
          simp
        · rw [he2, (pushLink_cases o r push st l).2.1, h2]
          simp

lemma pushLink_bloom_inv (o : Opts) (r : Req) (push : Str → PushResult)
    (st : PushState) (l : Str)
    (h : st.didPush = true → st.bloom.isSome = true) :
    (pushLink o r push st l).st.didPush = true →
      (pushLink o r push st l).st.bloom.isSome = true := by
  intro hd
  obtain ⟨-, h21, -, h24, h25⟩ := pushLink_cases o r push st l
  rw [h21] at hd
  cases hdo : (pushLink o r push st l).didPush
  · rw [hdo] at hd
    simp only [Bool.false_or] at hd
    exact h25 (h hd)
  · exact h24 hdo

lemma pushLoop_bloom_inv (o : Opts) (r : Req) (push : Str → PushResult)
    (orig : List Str) (ls : List Str) :
    ∀ (st : PushState) (restAcc pA cA : List Str),
      (st.didPush = true → st.bloom.isSome = true) →
      ((pushLoop o r push orig st ls restAcc pA cA).st.didPush = true →
        (pushLoop o r push orig st ls restAcc pA cA).st.bloom.isSome = true) := by
  induction ls with
  | nil =>
    intro st restAcc pA cA h
    exact h
  | cons l ls ih =>
    intro st restAcc pA cA h
    by_cases h1 : (pushLink o r push st l).err = some .unsupported
    · rw [pushLoop_cons_unsupported o r push orig st l ls restAcc pA cA h1]
      exact pushLink_bloom_inv o r push st l h
    · cases h2 : (pushLink o r push st l).didPush
      · rw [pushLoop_cons_skip o r push orig st l ls restAcc pA cA h1 h2]
        exact ih _ _ _ _ (pushLink_bloom_inv o r push st l h)
      · rw [pushLoop_cons_push o r push orig st l ls restAcc pA cA h1 h2]
        exact ih _ _ _ _ (pushLink_bloom_inv o r push st l h)

/-- C6: the memory cookie is set on a response iff at least one push
succeeded during its first header commit (equivalently, iff the recorded
pushed-links list is non-empty); a set cookie carries the configured cookie
template's name and attributes, which for the default options of `New` are
the default cookie name with `Max-Age` 7776000, `Secure` and `HttpOnly`. -/
theorem cookie_written_iff_push (m k : Nat) (o : Opts) (r : Req)
    (push : Str → PushResult) (links : List Str) (code : Nat) :
    (New m k none).cookie = ⟨defaultCookieName, [], 7776000, true, true⟩ ∧
    ((writeHeader o r push ⟨none, false, false⟩ ⟨links, none, none⟩ code).hdr.setCookie.isSome
        = true ↔
      (writeHeader o r push ⟨none, false, false⟩ ⟨links, none, none⟩ code).st.didPush = true) ∧
    ((writeHeader o r push ⟨none, false, false⟩ ⟨links, none, none⟩ code).st.didPush = true ↔
      (writeHeader o r push ⟨none, false, false⟩ ⟨links, none, none⟩ code).hdr.pushedH.getD []
        ≠ []) ∧
    (∀ c, (writeHeader o r push ⟨none, false, false⟩ ⟨links, none, none⟩ code).hdr.setCookie
        = some c →
      c.name = o.cookie.name ∧ c.maxAge = o.cookie.maxAge ∧
      c.secure = o.cookie.secure ∧ c.httpOnly = o.cookie.httpOnly) := by
  refine ⟨rfl, ?_⟩
  unfold writeHeader
  rw [if_neg (by simp)]
  dsimp only
  split_ifs with h304 hl
  · refine ⟨by simp, by simp, ?_⟩
    intro c hc
    exact absurd hc (by simp)
  · refine ⟨by simp, by simp, ?_⟩
    intro c hc
    exact absurd hc (by simp)
  · obtain ⟨extra, he1, he2⟩ :=
      pushLoop_didPush o r push links links ⟨none, false, true⟩ [] [] []
    have hbl :=
      pushLoop_bloom_inv o r push links links ⟨none, false, true⟩ [] [] [] (by simp)
    simp only at he2
    cases hdp : (pushLoop o r push links ⟨none, false, true⟩ links [] [] []).st.didPush
    · rw [hdp] at he2
      have hext : extra = [] := by
        cases extra
        · rfl
        · simp at he2
      refine ⟨?_, ?_, ?_⟩
      · simp only [saveBloomFilter, hdp]
        simp
      · simp only [hdp, he1, hext]
        simp
      · intro c hc
        simp only [saveBloomFilter, hdp] at hc
        exact absurd hc (by simp)
    · have hsome := hbl hdp
      obtain ⟨b, hb⟩ := Option.isSome_iff_exists.mp hsome
      refine ⟨?_, ?_, ?_⟩
      · simp only [saveBloomFilter, hdp, hb]
        simp
      · rw [hdp] at he2
        have hext : extra ≠ [] := by
          intro hc
          rw [hc] at he2
          simp at he2
        simp only [hdp, he1]
        simp [hext]
      · intro c hc
        simp only [saveBloomFilter, hdp, hb, if_true, Option.some.injEq] at hc
        rw [← hc]
        exact ⟨rfl, rfl, rfl, rfl⟩

theorem cookie_written_iff_push_witness :
    ((writeHeader (New 8 2 none) ⟨[], []⟩ (fun _ => PushResult.ok) ⟨none, false, false⟩
        ⟨[toL "</a>; rel=preload"], none, none⟩ 200).hdr.setCookie
      = some ⟨defaultCookieName, encode (bloomAdd (bloomNew 8 2) (toL "/a")),
          7776000, true, true⟩) ∧
    ((⟨defaultCookieName, encode (bloomAdd (bloomNew 8 2) (toL "/a")),
          7776000, true, true⟩ : Cookie).name = (New 8 2 none).cookie.name ∧
      (⟨defaultCookieName, encode (bloomAdd (bloomNew 8 2) (toL "/a")),
          7776000, true, true⟩ : Cookie).maxAge = (New 8 2 none).cookie.maxAge ∧
      (⟨defaultCookieName, encode (bloomAdd (bloomNew 8 2) (toL "/a")),
          7776000, true, true⟩ : Cookie).secure = (New 8 2 none).cookie.secure ∧
      (⟨defaultCookieName, encode (bloomAdd (bloomNew 8 2) (toL "/a")),
          7776000, true, true⟩ : Cookie).httpOnly = (New 8 2 none).cookie.httpOnly) :=
  ⟨by decide,
   (cookie_written_iff_push 8 2 (New 8 2 none) ⟨[], []⟩ (fun _ => PushResult.ok)
      [toL "</a>; rel=preload"] 200).2.2.2 _ (by decide)⟩

lemma pushLink_no_repush (o : Opts) (r : Req) (push : Str → PushResult) (p : Str)
    (hload : bloomTest (loadBloomFilter o r) p = true)
    (st : PushState) (l : Str)
    (hst : ∀ b, st.bloom = some b → bloomTest b p = true) :
    p ∉ (pushLink o r push st l).calls ∧
    (∀ b, (pushLink o r push st l).st.bloom = some b → bloomTest b p = true) := by
  unfold pushLink
  cases h : pushLinkPath l with
  | none =>
    exact ⟨List.not_mem_nil p, hst⟩
  | some path =>
    cases hbb : st.bloom with
    | none =>
      dsimp only
      by_cases hbt : bloomTest (loadBloomFilter o r) path
      · simp only [hbt, if_true]
        refine ⟨List.not_mem_nil p, ?_⟩
        intro b hbe
        simp only [Option.some.injEq] at hbe
        rw [← hbe]
        exact hload
      · have hnp : path ≠ p := fun hc => hbt (hc ▸ hload)
        cases hp : push path <;>
          simp only [hbt, Bool.false_eq_true, if_false, hp] <;>
          refine ⟨?_, ?_⟩
        · simp only [List.mem_singleton]
          exact fun hc => hnp hc.symm
        · intro b hbe
          simp only [Option.some.injEq] at hbe
          rw [← hbe]
          exact bloomTest_mono _ _ _ hload
        · simp only [List.mem_singleton]
          exact fun hc => hnp hc.symm
        · intro b hbe
          simp only [Option.some.injEq] at hbe
          rw [← hbe]
          exact hload
        · simp only [List.mem_singleton]
          exact fun hc => hnp hc.symm
        · intro b hbe
          simp only [Option.some.injEq] at hbe
          rw [← hbe]
          exact hload
    | some b0 =>
      have hb0 : bloomTest b0 p = true := hst b0 hbb
      dsimp only
      by_cases hbt : bloomTest b0 path
      · simp only [hbt, if_true]
        refine ⟨List.not_mem_nil p, ?_⟩
        intro b hbe
        simp only [Option.some.injEq] at hbe
        rw [← hbe]
        exact hb0
      · have hnp : path ≠ p := fun hc => hbt (hc ▸ hb0)
        cases hp : push path <;>
          simp only [hbt, Bool.false_eq_true, if_false, hp] <;>
          refine ⟨?_, ?_⟩
        · simp only [List.mem_singleton]
          exact fun hc => hnp hc.symm
        · intro b hbe
          simp only [Option.some.injEq] at hbe
          rw [← hbe]
          exact bloomTest_mono _ _ _ hb0
        · simp only [List.mem_singleton]
          exact fun hc => hnp hc.symm
        · intro b hbe
          simp only [Option.some.injEq] at hbe
          rw [← hbe]
          exact hb0
        · simp only [List.mem_singleton]
          exact fun hc => hnp hc.symm
        · intro b hbe
          simp only [Option.some.injEq] at hbe
          rw [← hbe]
          exact hb0

lemma pushLoop_no_repush (o : Opts) (r : Req) (push : Str → PushResult)
    (orig : List Str) (p : Str)
    (hload : bloomTest (loadBloomFilter o r) p = true) (ls : List Str) :
    ∀ (st : PushState) (restAcc pA cA : List Str),
      (∀ b, st.bloom = some b → bloomTest b p = true) →
      p ∉ cA →
      p ∉ (pushLoop o r push orig st ls restAcc pA cA).calls := by
  induction ls with
  | nil =>
    intro st restAcc pA cA hst hcA
    simpa [pushLoop] using hcA
  | cons l ls ih =>
    intro st restAcc pA cA hst hcA
    obtain ⟨hcall, hstep⟩ := pushLink_no_repush o r push p hload st l hst
    have hmem : p ∉ cA ++ (pushLink o r push st l).calls := by
      intro hm
      rcases List.mem_append.mp hm with hm | hm
      · exact hcA hm
      · exact hcall hm
    by_cases h1 : (pushLink o r push st l).err = some .unsupported
    · rw [pushLoop_cons_unsupported o r push orig st l ls restAcc pA cA h1]
      exact hmem
    · cases h2 : (pushLink o r push st l).didPush
      · rw [pushLoop_cons_skip o r push orig st l ls restAcc pA cA h1 h2]
        exact ih _ _ _ _ hstep hmem
      · rw [pushLoop_cons_push o r push orig st l ls restAcc pA cA h1 h2]
        exact ih _ _ _ _ hstep hmem

/-- C4: decode-encode round trip — a memory built by adding paths to a
fresh filter decodes from its encoding unchanged and tests positive on
every added path; consequently a second response whose request carries the
memory cookie from a prior response that pushed `p` never passes `p` to the
push capability again, and if that second commit pushes nothing, no memory
cookie is set on it. -/
theorem memory_roundtrip_no_repush (m k : Nat) (ps : List Str) (p : Str)
    (o : Opts) (r : Req) (push : Str → PushResult) (links : List Str) (code : Nat)
    (hp : p ∈ ps)
    (hcookie : reqCookie r o.cookie.name = some (encode (bloomAddAll (bloomNew m k) ps))) :
    decode (encode (bloomAddAll (bloomNew m k) ps))
      = some (bloomAddAll (bloomNew m k) ps) ∧
    bloomTest (bloomAddAll (bloomNew m k) ps) p = true ∧
    p ∉ (writeHeader o r push ⟨none, false, false⟩ ⟨links, none, none⟩ code).calls ∧
    ((writeHeader o r push ⟨none, false, false⟩ ⟨links, none, none⟩ code).st.didPush = false →
      (writeHeader o r push ⟨none, false, false⟩ ⟨links, none, none⟩ code).hdr.setCookie
        = none) := by
  have hwf := bloomAddAll_WF ps _ (bloomNew_WF m k)
  have htest := bloomTest_bloomAddAll_mem ps p hp _ (bloomNew_WF m k)
  have hloadeq := loadBloomFilter_cookie o r _ hwf hcookie
  refine ⟨decode_encode _ hwf, htest, ?_, ?_⟩
  · unfold writeHeader
    rw [if_neg (by simp)]
    dsimp only
    split_ifs with h304 hl
    · simp
    · simp
    · exact pushLoop_no_repush o r push links p (by rw [hloadeq]; exact htest) links
        ⟨none, false, true⟩ [] [] []
        (by intro b hb; exact absurd hb (by simp)) (by simp)
  · intro hdp
    unfold writeHeader at hdp ⊢
    rw [if_neg (by simp)] at hdp ⊢
    dsimp only at hdp ⊢
    split_ifs at hdp ⊢ with h304 hl
    · rfl
    · rfl
    · simp only at hdp
      simp only [saveBloomFilter, hdp]
      simp

theorem memory_roundtrip_no_repush_witness :
    ((toL "/a.js" ∈ [toL "/a.js"]) ∧
      reqCookie
        ⟨[], [(defaultCookieName, encode (bloomAddAll (bloomNew 8 2) [toL "/a.js"]))]⟩
        (New 8 2 none).cookie.name
        = some (encode (bloomAddAll (bloomNew 8 2) [toL "/a.js"]))) ∧
    (decode (encode (bloomAddAll (bloomNew 8 2) [toL "/a.js"]))
        = some (bloomAddAll (bloomNew 8 2) [toL "/a.js"]) ∧
      bloomTest (bloomAddAll (bloomNew 8 2) [toL "/a.js"]) (toL "/a.js") = true ∧
      toL "/a.js"
        ∉ (writeHeader (New 8 2 none)
            ⟨[], [(defaultCookieName, encode (bloomAddAll (bloomNew 8 2) [toL "/a.js"]))]⟩
            (fun _ => PushResult.ok) ⟨none, false, false⟩
            ⟨[toL "</a.js>; rel=preload"], none, none⟩ 200).calls ∧
      ((writeHeader (New 8 2 none)
            ⟨[], [(defaultCookieName, encode (bloomAddAll (bloomNew 8 2) [toL "/a.js"]))]⟩
            (fun _ => PushResult.ok) ⟨none, false, false⟩
            ⟨[toL "</a.js>; rel=preload"], none, none⟩ 200).st.didPush = false →
        (writeHeader (New 8 2 none)
            ⟨[], [(defaultCookieName, encode (bloomAddAll (bloomNew 8 2) [toL "/a.js"]))]⟩
            (fun _ => PushResult.ok) ⟨none, false, false⟩
            ⟨[toL "</a.js>; rel=preload"], none, none⟩ 200).hdr.setCookie = none)) :=
  ⟨⟨by decide, by decide⟩,
   memory_roundtrip_no_repush 8 2 [toL "/a.js"] (toL "/a.js") (New 8 2 none)
     ⟨[], [(defaultCookieName, encode (bloomAddAll (bloomNew 8 2) [toL "/a.js"]))]⟩
     (fun _ => PushResult.ok) [toL "</a.js>; rel=preload"] 200
     (by decide) (by decide)⟩

end ServerPush
